import Mathlib

/-!
Verification of the MP3 batch identify/rename/tag pipeline (`music.py`).

The definitions below are a shallow embedding of the source program:
pure string transforms (`sanitize_filename`, `make_target_filename`),
the payload extractor (`extract_trackinfo_from_shazam`) over a JSON-like
value type with Python truthiness/attribute semantics, the collision-safe
renamer (`safe_rename`), the tag writer (`update_tags`) with its external
collaborators (open / fetch / save) supplied as oracles, and the per-file
pipeline and batch orchestrator (`process_files_async`) with on-disk
mutations made explicit as an effect list.
-/

set_option maxRecDepth 4096

/-- Characters matched by the regex class backslash-s (ASCII range), as used
by `MULTISPACE_RE` and by Python's `str.strip`. -/
def isWs (c : Char) : Bool :=
  c == ' ' || c == '\t' || c == '\n' || c == '\r' || c.toNat == 11 || c.toNat == 12

/-- Characters of `INVALID_WIN_RE`, the reserved Windows filename set. -/
def isInvalidWin (c : Char) : Bool :=
  c == '<' || c == '>' || c == ':' || c == '\"' || c == '/' || c == '\\' ||
    c == '|' || c == '?' || c == '*'

/-- Line 52: `INVALID_WIN_RE.sub(" ", name)` — replace each reserved character
with a single space. -/
def replaceInvalid (l : List Char) : List Char :=
  l.map (fun c => if isInvalidWin c then ' ' else c)

/-- Model of `MULTISPACE_RE.sub(" ", s)`: every maximal run of whitespace is
replaced by one space. -/
def collapseWs : List Char → List Char
  | [] => []
  | [c] => if isWs c then [' '] else [c]
  | c :: d :: rest =>
    if isWs c then
      (if isWs d then collapseWs (d :: rest) else ' ' :: collapseWs (d :: rest))
    else c :: collapseWs (d :: rest)

/-- Remove trailing characters satisfying `p` (Python `str.rstrip`). -/
def dropTrail (p : Char → Bool) (l : List Char) : List Char :=
  (l.reverse.dropWhile p).reverse

/-- Python `str.strip()`: remove leading and trailing whitespace. -/
def pyStrip (l : List Char) : List Char :=
  dropTrail isWs (l.dropWhile isWs)

/-- Characters stripped by `.rstrip(" .")`. -/
def isSpDot (c : Char) : Bool :=
  c == ' ' || c == '.'

/-- Lines 53 and 55: `MULTISPACE_RE.sub(" ", name).strip().rstrip(" .")`. -/
def cleanupPass (l : List Char) : List Char :=
  dropTrail isSpDot (pyStrip (collapseWs l))

theorem length_dropWhile_le' (p : Char → Bool) (l : List Char) :
    (l.dropWhile p).length ≤ l.length := by
  induction l with
  | nil => simp [List.dropWhile]
  | cons c cs ih =>
    by_cases h : p c
    · simpa [List.dropWhile_cons_of_pos h] using Nat.le_succ_of_le ih
    · simp [List.dropWhile_cons_of_neg h]

/-- Line 54: `re.sub(r"\s*-\s*", " - ", name)`.  The scanner tries a match at
each position left to right; a match is a maximal run of whitespace, a
hyphen, then a maximal run of whitespace, replaced by one space, hyphen,
space; scanning resumes after the match, otherwise one character is copied
and scanning advances by one. -/
def subDashF : Nat → List Char → List Char
  | 0, l => l
  | fuel + 1, l =>
    let r1 := l.dropWhile isWs
    if r1.head? = some '-' then
      ' ' :: '-' :: ' ' :: subDashF fuel (r1.tail.dropWhile isWs)
    else
      match l with
      | [] => []
      | c :: cs => c :: subDashF fuel cs

def subDash (l : List Char) : List Char :=
  subDashF (l.length + 1) l

theorem subDashF_congr :
    ∀ (f1 f2 : Nat) (l : List Char), l.length < f1 → l.length < f2 →
      subDashF f1 l = subDashF f2 l := by
  intro f1
  induction f1 with
  | zero => intro f2 l h1 _; omega
  | succ f ih =>
    intro f2 l h1 h2
    match f2 with
    | 0 => omega
    | g + 1 =>
      show subDashF (f + 1) l = subDashF (g + 1) l
      unfold subDashF
      have hlen : (List.dropWhile isWs l).length ≤ l.length := length_dropWhile_le' isWs l
      by_cases hd : (l.dropWhile isWs).head? = some '-'
      · simp only [hd, if_pos]
        have htl : (l.dropWhile isWs).tail.length + 1 = (l.dropWhile isWs).length := by
          cases hh : l.dropWhile isWs with
          | nil => rw [hh] at hd; simp at hd
          | cons a as => simp
        have htl2 : ((l.dropWhile isWs).tail.dropWhile isWs).length ≤
            (l.dropWhile isWs).tail.length := length_dropWhile_le' _ _
        have hlpos : 0 < l.length := by
          cases l with
          | nil => simp at hd
          | cons a as => simp
        rw [ih g _ (by omega) (by omega)]
      · simp only [hd, if_neg, not_false_iff]
        cases l with
        | nil => rfl
        | cons c cs =>
          simp only []
          rw [ih g cs (by simp at h1; omega) (by simp at h2; omega)]

theorem subDashF_eq_subDash (fuel : Nat) (l : List Char) (h : l.length < fuel) :
    subDashF fuel l = subDash l :=
  subDashF_congr fuel (l.length + 1) l h (by omega)

/-- Unfolding equation for `subDash`: if the maximal whitespace run at the
current position is followed by a hyphen, the run, hyphen and following run
are replaced by one space, hyphen, space and scanning resumes after them;
otherwise one character is copied. -/
theorem subDash_eq (l : List Char) :
    subDash l =
      (if (l.dropWhile isWs).head? = some '-' then
        ' ' :: '-' :: ' ' :: subDash ((l.dropWhile isWs).tail.dropWhile isWs)
      else
        match l with
        | [] => []
        | c :: cs => c :: subDash cs) := by
  show subDashF (l.length + 1) l = _
  unfold subDashF
  have hlen : (List.dropWhile isWs l).length ≤ l.length := length_dropWhile_le' isWs l
  by_cases hd : (l.dropWhile isWs).head? = some '-'
  · simp only [hd, if_pos]
    have htl : (l.dropWhile isWs).tail.length + 1 = (l.dropWhile isWs).length := by
      cases hh : l.dropWhile isWs with
      | nil => rw [hh] at hd; simp at hd
      | cons a as => simp
    have htl2 : ((l.dropWhile isWs).tail.dropWhile isWs).length ≤
        (l.dropWhile isWs).tail.length := length_dropWhile_le' _ _
    rw [subDashF_eq_subDash l.length _ (by omega)]
  · simp only [hd, if_neg, not_false_iff]
    cases l with
    | nil => rfl
    | cons c cs =>
      simp only []
      rw [show (c :: cs).length = cs.length + 1 from by simp,
        subDashF_eq_subDash (cs.length + 1) cs (by omega)]

/-- Lines 51-56: `sanitize_filename`. -/
def sanitize_filename (name : String) : String :=
  let l1 := replaceInvalid name.data
  let l2 := cleanupPass l1
  let l3 := subDash l2
  let l4 := cleanupPass l3
  if l4.isEmpty then "untitled" else String.mk l4

/-- Lines 58-63: `make_target_filename`.  Note `if album:` is Python
truthiness, so an empty-string album behaves like a missing album. -/
def make_target_filename (artist title : String) (album : Option String) : String :=
  let base :=
    match album with
    | some a =>
      if a = "" then artist ++ " - " ++ title ++ ".mp3"
      else artist ++ " - " ++ title ++ " - " ++ a ++ ".mp3"
    | none => artist ++ " - " ++ title ++ ".mp3"
  sanitize_filename base

/-! ## JSON-like payload values and Python semantics -/

/-- Untyped JSON-like tree, the shape of a recognition payload. -/
inductive Json where
  | null
  | bool (b : Bool)
  | num (n : Int)
  | str (s : String)
  | arr (elems : List Json)
  | obj (fields : List (String × Json))

/-- Python truthiness of a payload value. -/
def pyTruthy : Json → Bool
  | .null => false
  | .bool b => b
  | .num n => n != 0
  | .str s => s != ""
  | .arr l => !l.isEmpty
  | .obj l => !l.isEmpty

/-- Python `a or b` on payload values. -/
def pyOr (a b : Json) : Json :=
  if pyTruthy a then a else b

/-- Python `x.get(k)` on a dict: `None` when absent; `AttributeError` when
`x` is not a dict. -/
def jGet (j : Json) (k : String) : Except String Json :=
  match j with
  | .obj kvs => .ok ((List.lookup k kvs).getD .null)
  | _ => .error "AttributeError"

/-- Python `x.get(k, d)` with an explicit default. -/
def jGetD (j : Json) (k : String) (d : Json) : Except String Json :=
  match j with
  | .obj kvs => .ok ((List.lookup k kvs).getD d)
  | _ => .error "AttributeError"

/-- Total field access for stating properties: `None` when `j` is not a
dict or the key is absent. -/
def objGet (j : Json) (k : String) : Json :=
  match j with
  | .obj kvs => (List.lookup k kvs).getD .null
  | _ => .null

/-- Python `for x in j`: lists yield elements, strings yield one-character
strings, dicts yield their keys; other values raise `TypeError`. -/
def pyIter : Json → Except String (List Json)
  | .arr l => .ok l
  | .str s => .ok (s.data.map (fun c => .str (String.mk [c])))
  | .obj kvs => .ok (kvs.map (fun kv => .str kv.1))
  | _ => .error "TypeError"

/-- Coerce to a string or raise, as string methods and `re.sub` do on
non-string arguments. -/
def asStr : Json → Except String String
  | .str s => .ok s
  | _ => .error "TypeError"

/-- Python `s.strip()` on a string value. -/
def pyStripStr (s : String) : String :=
  String.mk (pyStrip s.data)

/-- Python `s.lower()` (ASCII range), written as a character map so that it
evaluates by reduction. -/
def pyLower (s : String) : String :=
  String.mk (s.data.map Char.toLower)

/-- Lines 137-140: `MULTISPACE_RE.sub(" ", s).strip()` — the whitespace
normalization applied to artist, title and album. -/
def normStrS (s : String) : String :=
  String.mk (pyStrip (collapseWs s.data))

/-- Lines 26-31: resolved track identity.  `cover_url` keeps the raw payload
value, since the source stores it without a type check. -/
structure TrackInfo where
  artist : String
  title : String
  album : Option String := none
  cover_url : Json := .null

/-- Lines 128-132: the inner metadata loop body, updating the running album
value from one metadata entry. -/
def albumStep (alb2 : Json) (md : Json) : Except String Json :=
  match md with
  | .obj _ => do
    let t ← asStr (pyOr (objGet md "title") (.str ""))
    if pyLower (pyStripStr t) == "album" then
      pure (pyOr (objGet md "text") alb2)
    else
      pure alb2
  | _ => pure alb2

/-- Lines 122-132: the album-discovery loop body for one section. -/
def sectionStep (alb : Json) (sec : Json) : Except String Json :=
  match sec with
  | .obj _ =>
    let meta := objGet sec "metadata"
    if !pyTruthy meta then pure alb
    else do
      let mds ← pyIter meta
      mds.foldlM albumStep alb
  | _ => pure alb

/-- Lines 114-142: body of the `try` block of `extract_trackinfo_from_shazam`.
An `error` value models a raised exception. -/
def extract_body (payload : Json) : Except String (Option TrackInfo) := do
  let track := pyOr (← jGet payload "track") (.obj [])
  let title ← jGet track "title"
  let artist ← jGet track "subtitle"
  if !pyTruthy title || !pyTruthy artist then
    return none
  let sectionsJ ← jGetD track "sections" (.arr [])
  let secs ← pyIter (pyOr sectionsJ (.arr []))
  let album ← secs.foldlM sectionStep Json.null
  let imagesJ ← jGetD track "images" (.obj [])
  let images := pyOr imagesJ (.obj [])
  let c1 ← jGet images "coverarthq"
  let c2 ← jGet images "coverart"
  let c3 ← jGet images "background"
  let cover := pyOr c1 (pyOr c2 (pyOr c3 .null))
  let artistS ← asStr artist
  let titleS ← asStr title
  let albumOut ← (if pyTruthy album then do
      let a ← asStr album
      pure (some (normStrS a))
    else pure none)
  return some { artist := normStrS artistS, title := normStrS titleS,
                album := albumOut, cover_url := cover }

/-- Lines 113-144: `extract_trackinfo_from_shazam` — the `except` clause
turns any raised exception into `None`. -/
def extract_trackinfo_from_shazam (payload : Json) : Option TrackInfo :=
  match extract_body payload with
  | .ok r => r
  | .error _ => none

/-! ## Collision-safe rename -/

/-- Python `os.path.splitext` on a bare file name: split at the last dot,
unless every character before it is a dot. -/
def splitext (name : String) : String × String :=
  let cs := name.data
  let dotIdxs := (List.range cs.length).filter (fun i => cs.getD i ' ' == '.')
  match dotIdxs.getLast? with
  | none => (name, "")
  | some i =>
    if (cs.take i).all (fun c => c == '.') then (name, "")
    else (String.mk (cs.take i), String.mk (cs.drop i))

/-- Lines 71-77: probe `" (1)"`, `" (2)"`, … before the extension until the
candidate name does not exist.  The source loop is unbounded; here it is
given `fuel` attempts and returns `none` on exhaustion, which cannot happen
when `fuel` exceeds the number of existing files. -/
def probeSuffix (existing : List String) (stem ext : String) : Nat → Nat → Option String
  | _, 0 => none
  | i, fuel + 1 =>
    let candidate := stem ++ " (" ++ toString i ++ ")" ++ ext
    if existing.contains candidate then probeSuffix existing stem ext (i + 1) fuel
    else some candidate

/-- Lines 65-77: `safe_rename`, with the filesystem modelled as the list of
names existing in the directory.  Returns the name the file ends up with. -/
def safe_rename (existing : List String) (srcName target_name : String) : Option String :=
  if target_name == srcName then some srcName
  else if !existing.contains target_name then some target_name
  else
    let (stem, ext) := splitext target_name
    probeSuffix existing stem ext 1 (existing.length + 1)

/-! ## Tag writer -/

/-- Lines 79-83: `sniff_image_mime`, with image bytes as a list of byte
values. -/
def sniff_image_mime (data : List Nat) : String :=
  if data.take 3 = [0xff, 0xd8, 0xff] then "image/jpeg"
  else if data.take 4 = [0x89, 0x50, 0x4e, 0x47] then "image/png"
  else if data.take 6 = [0x47, 0x49, 0x46, 0x38, 0x37, 0x61] ||
      data.take 6 = [0x47, 0x49, 0x46, 0x38, 0x39, 0x61] then "image/gif"
  else "application/octet-stream"

/-- Outcomes of the tag writer's external collaborators for one file:
opening the tag container (`MP3(file_path)` / `ensure_id3`), fetching the
cover bytes (`requests.get` + `raise_for_status`), and saving the container
(`audio.save`).  An `error` value models a raised exception. -/
structure TagEnv where
  openRes : Except String Unit
  fetchRes : Except String (List Nat)
  saveRes : Except String Unit

/-- Lines 90-111: `update_tags`.  Text tags are always (re)written; the
cover fetch is attempted only for a truthy `cover_url` and any fetch
failure only clears `art_ok`; open or save failures raise.  The sole
`return` is `(True, art_ok)`. -/
def update_tags (track : TrackInfo) (env : TagEnv) : Except String (Bool × Bool) := do
  let _ ← env.openRes
  let art_ok :=
    if pyTruthy track.cover_url then
      match env.fetchRes with
      | .ok _ => true
      | .error _ => false
    else false
  let _ ← env.saveRes
  return (true, art_ok)

/-! ## Per-file pipeline and batch orchestrator -/

/-- Lines 33-42: per-file outcome record. -/
structure FileResult where
  src_name : String
  dest_name : String
  identified : Bool := false
  renamed : Bool := false
  tags_ok : Bool := false
  art_ok : Bool := false
  skipped : Bool := false
  error : Option String := none

/-- On-disk mutations a file's pipeline run can perform. -/
inductive Effect where
  | rename (fromName toName : String)
  | tagWrite (name : String)

/-- External outcomes for one file's pipeline run: the recognition result
(`shazam_identify_file` is total and returns `None` on any failure), the
rename outcome (the resulting name, or a raised error), and the tag
writer's collaborators. -/
structure FileEnv where
  identify : Option TrackInfo
  renameRes : Except String String
  tagEnv : TagEnv

/-- Lines 264-273: the tagging stage, shared by the renamed and
not-renamed paths.  In dry-run mode the result is synthesized without
touching the file. -/
def tagStage (dry_run : Bool) (ti : TrackInfo) (env : FileEnv) (r : FileResult)
    (path : String) (effs : List Effect) : FileResult × List Effect :=
  if dry_run then
    ({ r with tags_ok := true, art_ok := pyTruthy ti.cover_url }, effs)
  else
    match update_tags ti env.tagEnv with
    | .error e => ({ r with error := some e }, effs)
    | .ok (ok, art) =>
      ({ r with tags_ok := ok, art_ok := art }, effs ++ [Effect.tagWrite path])

/-- Lines 226-289: one iteration of the batch loop — identify, rename, tag,
with the `except` clause recording the error and keeping already-applied
side effects. -/
def processFile (dry_run : Bool) (srcName : String) (env : FileEnv) :
    FileResult × List Effect :=
  let r0 : FileResult := { src_name := srcName, dest_name := srcName }
  match env.identify with
  | none => ({ r0 with skipped := true }, [])
  | some ti =>
    let r1 := { r0 with identified := true }
    let new_name := make_target_filename ti.artist ti.title ti.album
    if new_name != srcName && !dry_run then
      match env.renameRes with
      | .error e => ({ r1 with error := some e }, [])
      | .ok newPath =>
        let r2 := { r1 with dest_name := newPath, renamed := true }
        tagStage dry_run ti env r2 newPath [Effect.rename srcName newPath]
    else
      tagStage dry_run ti env r1 srcName []

/-- Lines 300-310: the aggregate returned by `process_files_async`
(elapsed time is not modelled). -/
structure Summary where
  results : List FileResult := []
  processed : Nat := 0
  unidentified : Nat := 0
  errors : Nat := 0
  total : Nat := 0

/-- Counter update for one file, mirroring lines 236-237 (skip),
280-281 (error) and 275 (processed): each branch of the loop body
increments exactly the counter of its terminal state. -/
def stepSummary (s : Summary) (r : FileResult) : Summary :=
  if r.skipped then
    { s with results := s.results ++ [r], unidentified := s.unidentified + 1 }
  else if r.error.isSome then
    { s with results := s.results ++ [r], errors := s.errors + 1 }
  else
    { s with results := s.results ++ [r], processed := s.processed + 1 }

/-- Lines 219-310: `process_files_async` over a list of files, each paired
with the outcomes of its external collaborators. -/
def process_files_async (dry_run : Bool) (files : List (String × FileEnv)) : Summary :=
  let s := files.foldl (fun s nf => stepSummary s (processFile dry_run nf.1 nf.2).1)
    { : Summary }
  { s with total := files.length }

/-! ## Claims about the renamer and tag writer -/

/-- C8: when "A.mp3" and "A (1).mp3" already exist at the destination, the
collision-safe rename of some other file to the target name "A.mp3" renames
it to "A (2).mp3": suffixes " (1)", " (2)", … are probed in increasing order
before the extension and the first free one is taken. -/
theorem claim_C8_collision_resolution :
    safe_rename ["B.mp3", "A.mp3", "A (1).mp3"] "B.mp3" "A.mp3" = some "A (2).mp3" := by
  rfl

/-- Shared shape lemma for the tag writer: it either raises, or returns
`(True, art_ok)` — the first component of a normal return is always true. -/
theorem update_tags_shape (track : TrackInfo) (env : TagEnv) :
    (∃ e, update_tags track env = .error e) ∨
      (∃ art, update_tags track env = .ok (true, art)) := by
  rcases env with ⟨o, f, s⟩
  cases o with
  | error e => left; exact ⟨e, rfl⟩
  | ok u =>
    cases s with
    | error e => left; exact ⟨e, by simp [update_tags, bind, Except.bind]⟩
    | ok v =>
      right
      refine ⟨(if pyTruthy track.cover_url then
        (match f with | .ok _ => true | .error _ => false) else false), ?_⟩
      simp [update_tags, bind, Except.bind, pure, Except.pure]

/-- C10: whenever the tag writer returns at all (does not raise), the first
component of its result (`tags_ok`) is true; a `tags_ok = false` outcome is
never produced, so a text-tag write failure can only manifest as a raised
exception that becomes the file's error. -/
theorem claim_C10_tags_ok_always_true (track : TrackInfo) (env : TagEnv)
    (r : Bool × Bool) (h : update_tags track env = .ok r) : r.1 = true := by
  rcases update_tags_shape track env with ⟨e, he⟩ | ⟨art, ha⟩
  · rw [he] at h; cases h
  · rw [ha] at h
    cases h
    rfl

theorem claim_C10_tags_ok_always_true_witness :
    (⟨"A", "T", none, .null⟩ : TrackInfo).artist = "A" ∧ (true, false).1 = true := by
  refine ⟨rfl, ?_⟩
  exact claim_C10_tags_ok_always_true ⟨"A", "T", none, .null⟩ ⟨.ok (), .ok [], .ok ()⟩
    (true, false) (by rfl)

/-- C9: when a TrackInfo has a cover URL and fetching its bytes fails, the
tag-write operation still completes with `art_ok = false` rather than
failing as a whole, and the fetch failure never surfaces as the file's
error. -/
theorem claim_C9_art_failure_degrades (url e artist title ren src : String)
    (album : Option String) :
    update_tags ⟨artist, title, album, .str url⟩ ⟨.ok (), .error e, .ok ()⟩ =
      .ok (true, false) ∧
    (processFile false src
        ⟨some ⟨artist, title, album, .str url⟩, .ok ren,
         ⟨.ok (), .error e, .ok ()⟩⟩).1.error = none := by
  constructor
  · simp [update_tags, bind, Except.bind, pure, Except.pure, pyTruthy]
  · have hupd : update_tags ⟨artist, title, album, .str url⟩ ⟨.ok (), .error e, .ok ()⟩ =
        .ok (true, false) := by
      simp [update_tags, bind, Except.bind, pure, Except.pure, pyTruthy]
    simp only [processFile]
    by_cases hnm :
        (make_target_filename artist title album != src && !false) = true
    · simp only [hnm, if_pos, tagStage, hupd]
      simp
    · simp only [hnm, if_neg, not_false_iff, Bool.not_eq_true, tagStage, hupd]

/-! ## Claims about the per-file pipeline -/

/-- Exactly one of three booleans holds. -/
def exactlyOne (a b c : Bool) : Bool :=
  (a && !b && !c) || (!a && b && !c) || (!a && !b && c)

/-- Shared terminal-classification lemma: every pipeline run ends in exactly
one of skipped, error, or identified-and-tagged. -/
theorem processFile_classification (dry : Bool) (src : String) (env : FileEnv) :
    exactlyOne (processFile dry src env).1.skipped
      ((processFile dry src env).1.error.isSome)
      ((processFile dry src env).1.identified && (processFile dry src env).1.tags_ok)
      = true := by
  rcases env with ⟨idf, ren, tenv⟩
  cases idf with
  | none => simp [processFile, exactlyOne]
  | some ti =>
    simp only [processFile]
    by_cases hnm : (make_target_filename ti.artist ti.title ti.album != src && !dry) = true
    · have hdry : dry = false := by
        have h2 := (Bool.and_eq_true _ _).mp hnm
        simpa using h2.2
      subst hdry
      simp only [hnm, if_pos]
      cases ren with
      | error e => simp [exactlyOne]
      | ok np =>
        simp only [tagStage, if_neg, Bool.false_eq_true, not_false_iff]
        rcases update_tags_shape ti tenv with ⟨e, he⟩ | ⟨art, ha⟩
        · simp [he, exactlyOne]
        · simp [ha, exactlyOne]
    · simp only [hnm, if_neg, not_false_iff]
      cases dry with
      | true => simp [tagStage, exactlyOne]
      | false =>
        simp only [tagStage, if_neg, Bool.false_eq_true, not_false_iff]
        rcases update_tags_shape ti tenv with ⟨e, he⟩ | ⟨art, ha⟩
        · simp [he, exactlyOne]
        · simp [ha, exactlyOne]

/-- C1: for every file the batch processes, the final FileResult satisfies
exactly one of the three terminal classifications: `skipped` is true, or
`error` is non-null, or both `identified` and `tags_ok` are true. -/
theorem claim_C1_result_invariant (dry : Bool) (src : String) (env : FileEnv) :
    exactlyOne (processFile dry src env).1.skipped
      ((processFile dry src env).1.error.isSome)
      ((processFile dry src env).1.identified && (processFile dry src env).1.tags_ok)
      = true :=
  processFile_classification dry src env

def tiC2 : TrackInfo := { artist := "Queen", title := "Song" }

def envC2 : FileEnv :=
  { identify := some tiC2, renameRes := .ok "ignored",
    tagEnv := { openRes := .ok (), fetchRes := .ok [], saveRes := .ok () } }

/-- C2 counterexample: in preview mode, for a file whose computed target
name differs from its current name (so the would-be rename decision is
"rename"), the pipeline leaves `renamed = false` (and performs no effect),
so `renamed` does not reflect the would-be rename decision. -/
theorem claim_C2_counterexample :
    make_target_filename tiC2.artist tiC2.title tiC2.album ≠ "x.mp3" ∧
    (processFile true "x.mp3" envC2).1.renamed = false ∧
    (processFile true "x.mp3" envC2).2 = [] := by
  exact ⟨by decide, rfl, rfl⟩

/-- C2 as amended: in preview mode no rename and no tag write is performed
on disk, `renamed` stays false and `dest_name` stays the source name even
when the target name differs, and for identified files `tags_ok` is set to
true and `art_ok` is set exactly when the TrackInfo's cover URL is truthy. -/
theorem claim_C2_dry_run_amended (src : String) (env : FileEnv) :
    (processFile true src env).2 = [] ∧
    (processFile true src env).1.renamed = false ∧
    (processFile true src env).1.dest_name = src ∧
    ∀ ti, env.identify = some ti →
      (processFile true src env).1.tags_ok = true ∧
      (processFile true src env).1.art_ok = pyTruthy ti.cover_url := by
  rcases env with ⟨idf, ren, tenv⟩
  cases idf with
  | none => exact ⟨rfl, rfl, rfl, fun ti h => by cases h⟩
  | some ti0 =>
    refine ⟨?_, ?_, ?_, ?_⟩
    · simp [processFile, tagStage]
    · simp [processFile, tagStage]
    · simp [processFile, tagStage]
    · intro ti h
      injection h with h
      subst h
      constructor
      · simp [processFile, tagStage]
      · simp [processFile, tagStage]

theorem claim_C2_dry_run_amended_witness :
    (processFile true "x.mp3" envC2).1.tags_ok = true ∧
    (processFile true "x.mp3" envC2).1.art_ok = pyTruthy tiC2.cover_url :=
  (claim_C2_dry_run_amended "x.mp3" envC2).2.2.2 tiC2 rfl

/-! ## Claims about the batch counters -/

/-- Shared lemma: each batch step grows the results list by one and exactly
one of the three counters by one. -/
theorem stepSummary_counts (s : Summary) (r : FileResult) :
    (stepSummary s r).processed + (stepSummary s r).unidentified +
        (stepSummary s r).errors =
      s.processed + s.unidentified + s.errors + 1 ∧
    (stepSummary s r).results.length = s.results.length + 1 ∧
    (stepSummary s r).total = s.total := by
  simp only [stepSummary]
  by_cases h1 : r.skipped = true
  · simp [h1]; omega
  · simp only [h1, if_neg, not_false_iff, Bool.not_eq_true]
    by_cases h2 : r.error.isSome = true
    · simp [h1, h2]; omega
    · simp [h1, h2]; omega

theorem batch_fold_counts (dry : Bool) :
    ∀ (files : List (String × FileEnv)) (s0 : Summary),
      ((files.foldl (fun s nf => stepSummary s (processFile dry nf.1 nf.2).1) s0).processed +
       (files.foldl (fun s nf => stepSummary s (processFile dry nf.1 nf.2).1) s0).unidentified +
       (files.foldl (fun s nf => stepSummary s (processFile dry nf.1 nf.2).1) s0).errors =
         s0.processed + s0.unidentified + s0.errors + files.length) ∧
      ((files.foldl (fun s nf => stepSummary s (processFile dry nf.1 nf.2).1) s0).results.length =
         s0.results.length + files.length) := by
  intro files
  induction files with
  | nil => intro s0; simp
  | cons nf rest ih =>
    intro s0
    simp only [List.foldl_cons, List.length_cons]
    rcases ih (stepSummary s0 (processFile dry nf.1 nf.2).1) with ⟨ha, hb⟩
    rcases stepSummary_counts s0 (processFile dry nf.1 nf.2).1 with ⟨hc, hd, _⟩
    constructor
    · rw [ha, hc]; omega
    · rw [hb, hd]; omega

def tiC6 : TrackInfo := { artist := "Queen", title := "Song" }

def envC6 : FileEnv :=
  { identify := some tiC6, renameRes := .ok "Queen - Song.mp3",
    tagEnv := { openRes := .ok (), fetchRes := .ok [], saveRes := .error "boom" } }

/-- C6 counterexample: in the very run the claim describes — a file is
renamed and then errors during tagging — the three counters still sum to
the total (here 0 + 0 + 1 = 1), so no such run breaks the identity. -/
theorem claim_C6_counterexample :
    (process_files_async false [("x.mp3", envC6)]).results.map
        (fun r => (r.renamed, r.error)) = [(true, some "boom")] ∧
    (process_files_async false [("x.mp3", envC6)]).processed +
      (process_files_async false [("x.mp3", envC6)]).unidentified +
      (process_files_async false [("x.mp3", envC6)]).errors =
      (process_files_async false [("x.mp3", envC6)]).total := by
  constructor
  · rfl
  · rfl

/-- C6 as amended: the identity `processed + unidentified + errors = total`
holds for every run — each file increments exactly one counter, an error
during tagging after a successful rename being counted only as an error —
and `results.length = total` always holds as well. -/
theorem claim_C6_counters_amended (dry : Bool) (files : List (String × FileEnv)) :
    (process_files_async dry files).processed +
      (process_files_async dry files).unidentified +
      (process_files_async dry files).errors = (process_files_async dry files).total ∧
    (process_files_async dry files).results.length =
      (process_files_async dry files).total := by
  rcases batch_fold_counts dry files { : Summary } with ⟨ha, hb⟩
  simp only [process_files_async]
  constructor
  · simpa using ha
  · simpa using hb

/-! ## Claims about the payload extractor -/

/-- Line 115: the `track` value the extractor works on, as a total
function. -/
def rawTrack (p : Json) : Json :=
  pyOr (objGet p "track") (.obj [])

/-- Line 116: the raw `track.title` value, `None` when absent or when the
track value is not a dict. -/
def rawTitle (p : Json) : Json :=
  objGet (rawTrack p) "title"

/-- Line 117: the raw `track.subtitle` value. -/
def rawSubtitle (p : Json) : Json :=
  objGet (rawTrack p) "subtitle"

/-- C5: extract is total — a raised exception anywhere in the body (any
structural anomaly) yields the unusable outcome rather than aborting the
caller, and a missing or empty (falsy) `track.title` or `track.subtitle`
yields the unusable outcome as well. -/
theorem claim_C5_extraction_totality (p : Json) :
    (∀ e, extract_body p = .error e → extract_trackinfo_from_shazam p = none) ∧
    ((pyTruthy (rawTitle p) = false ∨ pyTruthy (rawSubtitle p) = false) →
      extract_trackinfo_from_shazam p = none) := by
  constructor
  · intro e h
    simp [extract_trackinfo_from_shazam, h]
  · intro hyp
    cases p with
    | null => rfl
    | bool b => rfl
    | num n => rfl
    | str s => rfl
    | arr l => rfl
    | obj kvs =>
      have hv : jGet (Json.obj kvs) "track" = .ok ((List.lookup "track" kvs).getD .null) := rfl
      rcases htr : pyOr ((List.lookup "track" kvs).getD .null) (.obj []) with
        _ | b | n | s | l | kvs2
      · simp [extract_trackinfo_from_shazam, extract_body, hv, htr, jGet,
          bind, Except.bind]
      · simp [extract_trackinfo_from_shazam, extract_body, hv, htr, jGet,
          bind, Except.bind]
      · simp [extract_trackinfo_from_shazam, extract_body, hv, htr, jGet,
          bind, Except.bind]
      · simp [extract_trackinfo_from_shazam, extract_body, hv, htr, jGet,
          bind, Except.bind]
      · simp [extract_trackinfo_from_shazam, extract_body, hv, htr, jGet,
          bind, Except.bind]
      · have htitle : rawTitle (Json.obj kvs) = (List.lookup "title" kvs2).getD .null := by
          simp [rawTitle, rawTrack, objGet, htr]
        have hsub : rawSubtitle (Json.obj kvs) = (List.lookup "subtitle" kvs2).getD .null := by
          simp [rawSubtitle, rawTrack, objGet, htr]
        have hcond : (!pyTruthy ((List.lookup "title" kvs2).getD .null) ||
            !pyTruthy ((List.lookup "subtitle" kvs2).getD .null)) = true := by
          rcases hyp with h | h
          · rw [htitle] at h; simp [h]
          · rw [hsub] at h; simp [h]
        simp [extract_trackinfo_from_shazam, extract_body, hv, htr, jGet,
          bind, Except.bind, hcond, pure, Except.pure]

theorem claim_C5_extraction_totality_witness :
    extract_body (Json.num 3) = .error "AttributeError" ∧
    pyTruthy (rawTitle (Json.num 3)) = false ∧
    extract_trackinfo_from_shazam (Json.num 3) = none := by
  refine ⟨rfl, rfl, ?_⟩
  exact (claim_C5_extraction_totality (Json.num 3)).2 (Or.inl rfl)

/-- A metadata entry `{"title": t, "text": x}`. -/
def mkEntry (e : String × String) : Json :=
  .obj [("title", .str e.1), ("text", .str e.2)]

/-- A section whose metadata list holds the given (title, text) entries. -/
def mkSection (entries : List (String × String)) : Json :=
  .obj [("metadata", .arr (entries.map mkEntry))]

/-- A payload with the given title, subtitle and sections. -/
def mkPayload (title subtitle : String) (secs : List (List (String × String))) : Json :=
  .obj [("track", .obj [("title", .str title), ("subtitle", .str subtitle),
    ("sections", .arr (secs.map mkSection))])]

/-- Album update for one (title, text) metadata entry: a matching entry with
non-empty text overwrites the running value. -/
def entryStep (acc : Option String) (e : String × String) : Option String :=
  if pyLower (pyStripStr e.1) == "album" && e.2 != "" then some e.2 else acc

/-- The album the loop of lines 121-132 computes on such sections: the LAST
entry in scan order whose title (stripped, lowercased) equals "album" and
whose text is non-empty wins, across all sections. -/
def albumLastMatch (secs : List (List (String × String))) : Option String :=
  secs.foldl (fun acc entries => entries.foldl entryStep acc) none

/-- The running album value as the Python variable holds it. -/
def toAlbJson : Option String → Json
  | none => .null
  | some a => .str a

theorem pyOr_str_empty (x : String) : pyOr (.str x) (.str "") = .str x := by
  by_cases h : x = ""
  · subst h; rfl
  · simp [pyOr, pyTruthy, h]

theorem albumStep_mkEntry (acc : Option String) (e : String × String) :
    albumStep (toAlbJson acc) (mkEntry e) = .ok (toAlbJson (entryStep acc e)) := by
  have h0 : albumStep (toAlbJson acc) (mkEntry e) =
      (asStr (pyOr (Json.str e.1) (Json.str "")) >>= fun t =>
        if pyLower (pyStripStr t) == "album" then
          pure (pyOr (Json.str e.2) (toAlbJson acc))
        else pure (toAlbJson acc)) := rfl
  rw [h0, pyOr_str_empty]
  simp only [asStr, bind, Except.bind]
  by_cases hc : (pyLower (pyStripStr e.1) == "album") = true
  · simp only [hc, if_pos, pure, Except.pure]
    by_cases hx : e.2 = ""
    · rw [hx]
      simp [pyOr, pyTruthy, entryStep, hc, hx]
    · simp [pyOr, pyTruthy, entryStep, hc, hx, toAlbJson]
  · simp [hc, pure, Except.pure, entryStep]

theorem entryFold (entries : List (String × String)) :
    ∀ acc : Option String,
      (entries.map mkEntry).foldlM albumStep (toAlbJson acc) =
        .ok (toAlbJson (entries.foldl entryStep acc)) := by
  induction entries with
  | nil => intro acc; rfl
  | cons e rest ih =>
    intro acc
    simp only [List.map_cons, List.foldlM_cons, List.foldl_cons,
      albumStep_mkEntry, bind, Except.bind]
    exact ih (entryStep acc e)

theorem sectionStep_mkSection (acc : Option String) (entries : List (String × String)) :
    sectionStep (toAlbJson acc) (mkSection entries) =
      .ok (toAlbJson (entries.foldl entryStep acc)) := by
  cases entries with
  | nil => rfl
  | cons e rest =>
    have h0 : sectionStep (toAlbJson acc) (mkSection (e :: rest)) =
        ((e :: rest).map mkEntry).foldlM albumStep (toAlbJson acc) := rfl
    rw [h0, entryFold (e :: rest) acc]

theorem sectionFold (secs : List (List (String × String))) :
    ∀ acc : Option String,
      (secs.map mkSection).foldlM sectionStep (toAlbJson acc) =
        .ok (toAlbJson (secs.foldl (fun a entries => entries.foldl entryStep a) acc)) := by
  induction secs with
  | nil => intro acc; rfl
  | cons entries rest ih =>
    intro acc
    simp only [List.map_cons, List.foldlM_cons, List.foldl_cons,
      sectionStep_mkSection, bind, Except.bind]
    exact ih (entries.foldl entryStep acc)

theorem entryFold_ne_empty (entries : List (String × String)) :
    ∀ acc : Option String, acc ≠ some "" →
      entries.foldl entryStep acc ≠ some "" := by
  induction entries with
  | nil => intro acc h; simpa using h
  | cons e rest ih =>
    intro acc h
    simp only [List.foldl_cons]
    apply ih
    simp only [entryStep]
    by_cases hc : (pyLower (pyStripStr e.1) == "album" && e.2 != "") = true
    · simp only [hc, if_pos]
      intro hcontra
      injection hcontra with hcontra
      rcases (Bool.and_eq_true _ _).mp hc with ⟨_, h2⟩
      rw [hcontra] at h2
      simp at h2
    · simpa [hc] using h

theorem albumLastMatch_ne_empty (secs : List (List (String × String))) :
    albumLastMatch secs ≠ some "" := by
  have : ∀ (ss : List (List (String × String))) (acc : Option String), acc ≠ some "" →
      ss.foldl (fun a entries => entries.foldl entryStep a) acc ≠ some "" := by
    intro ss
    induction ss with
    | nil => intro acc h; simpa using h
    | cons entries rest ih =>
      intro acc h
      simp only [List.foldl_cons]
      exact ih _ (entryFold_ne_empty entries acc h)
  exact this secs none (by simp)

theorem pyIter_pyOr_arr (L : List Json) : pyIter (pyOr (.arr L) (.arr [])) = .ok L := by
  cases L with
  | nil => rfl
  | cons x xs => rfl

/-- C3 counterexample: in a single section whose metadata list holds two
matching "album" entries with texts "First" and "Second", the extractor
returns the album "Second" — the last matching entry within the section —
not the first as the claim states. -/
theorem claim_C3_counterexample :
    extract_trackinfo_from_shazam (mkPayload "T" "A" [[("album", "First"), ("album", "Second")]]) =
      some { artist := "A", title := "T", album := some "Second", cover_url := .null } ∧
    ("Second" : String) ≠ "First" := by
  exact ⟨rfl, by decide⟩

/-- C3 as amended: on sections given as metadata lists of (title, text)
string entries, the album is determined by the LAST metadata entry in scan
order — across sections and equally within a section — whose title
(stripped, lowercased) equals "album" and whose text is non-empty; the
last matching section therefore wins, as does the last matching entry
inside each section. -/
theorem claim_C3_album_last_match (t s : String) (secs : List (List (String × String)))
    (ht : t ≠ "") (hs : s ≠ "") :
    extract_trackinfo_from_shazam (mkPayload t s secs) =
      some { artist := normStrS s, title := normStrS t,
             album := (albumLastMatch secs).map normStrS, cover_url := .null } := by
  have hT : pyTruthy (Json.str t) = true := by simp [pyTruthy, ht]
  have hS : pyTruthy (Json.str s) = true := by simp [pyTruthy, hs]
  have hsec := sectionFold secs none
  simp only [toAlbJson] at hsec
  have hbody : extract_body (mkPayload t s secs) =
      (if !pyTruthy (Json.str t) || !pyTruthy (Json.str s) then pure none
       else
        (pyIter (pyOr (Json.arr (secs.map mkSection)) (Json.arr [])) >>= fun sl =>
         sl.foldlM sectionStep Json.null >>= fun album =>
         (if pyTruthy album then
            (asStr album >>= fun a => pure (some (normStrS a)))
          else pure none) >>= fun albumOut =>
         pure (some { artist := normStrS s, title := normStrS t,
                      album := albumOut, cover_url := Json.null }))) := rfl
  rw [extract_trackinfo_from_shazam, hbody, hT, hS]
  simp only [Bool.not_true, Bool.or_self, Bool.false_eq_true, if_neg, not_false_iff,
    pyIter_pyOr_arr, bind, Except.bind, hsec]
  rcases hA : albumLastMatch secs with _ | a
  · rw [show (secs.foldl (fun a entries => entries.foldl entryStep a) none) =
      albumLastMatch secs from rfl, hA]
    simp [pyTruthy, pure, Except.pure]
  · rw [show (secs.foldl (fun a entries => entries.foldl entryStep a) none) =
      albumLastMatch secs from rfl, hA]
    have ha : a ≠ "" := by
      intro h
      exact albumLastMatch_ne_empty secs (by rw [hA, h])
    simp [pyTruthy, ha, asStr, pure, Except.pure]

theorem claim_C3_album_last_match_witness :
    extract_trackinfo_from_shazam (mkPayload "T" "A" [[("album", "X")], [("x", "Y")]]) =
      some { artist := normStrS "A", title := normStrS "T",
             album := (albumLastMatch [[("album", "X")], [("x", "Y")]]).map normStrS,
             cover_url := .null } :=
  claim_C3_album_last_match "T" "A" [[("album", "X")], [("x", "Y")]]
    (by decide) (by decide)

/-! ## Whitespace normal forms, toward sanitizer idempotence -/

/-- Adjacent-pair constraint: a hyphen only ever sits next to spaces. -/
def dashOk (a b : Char) : Prop :=
  (a = '-' → b = ' ') ∧ (b = '-' → a = ' ')

/-- Adjacent-pair constraint: no two whitespace characters in a row. -/
def noWsPair (a b : Char) : Prop :=
  ¬(isWs a = true ∧ isWs b = true)

theorem dashOk_space_left (b : Char) : dashOk ' ' b := by
  constructor
  · intro h; cases h
  · intro _; rfl

theorem dashOk_space_right (a : Char) : dashOk a ' ' := by
  constructor
  · intro _; rfl
  · intro h; cases h

theorem collapse_cons_nonws (c : Char) (hc : isWs c = false) (X : List Char) :
    collapseWs (c :: X) = c :: collapseWs X := by
  cases X with
  | nil => simp [collapseWs, hc]
  | cons d Y => simp [collapseWs, hc]

theorem collapse_cons_ws_ws (c d : Char) (hc : isWs c = true) (hd : isWs d = true)
    (Y : List Char) : collapseWs (c :: d :: Y) = collapseWs (d :: Y) := by
  simp [collapseWs, hc, hd]

theorem collapse_cons_ws_nonws (c d : Char) (hc : isWs c = true) (hd : isWs d = false)
    (Y : List Char) : collapseWs (c :: d :: Y) = ' ' :: collapseWs (d :: Y) := by
  simp [collapseWs, hc, hd]

theorem collapse_singleton_ws (c : Char) (hc : isWs c = true) :
    collapseWs [c] = [' '] := by simp [collapseWs, hc]

theorem mem_collapseWs : ∀ (l : List Char) (c : Char), c ∈ collapseWs l → c ∈ l ∨ c = ' ' := by
  intro l
  induction l with
  | nil => intro c h; simp [collapseWs] at h
  | cons a as ih =>
    intro c h
    by_cases ha : isWs a = true
    · cases as with
      | nil =>
        rw [collapse_singleton_ws a ha] at h
        simp at h
        right; exact h
      | cons d Y =>
        by_cases hd : isWs d = true
        · rw [collapse_cons_ws_ws a d ha hd] at h
          rcases ih c h with h1 | h1
          · left; exact List.mem_cons_of_mem a h1
          · right; exact h1
        · rw [collapse_cons_ws_nonws a d ha (by simpa using hd)] at h
          rcases List.mem_cons.mp h with h1 | h1
          · right; exact h1
          · rcases ih c h1 with h2 | h2
            · left; exact List.mem_cons_of_mem a h2
            · right; exact h2
    · rw [collapse_cons_nonws a (by simpa using ha) as] at h
      rcases List.mem_cons.mp h with h1 | h1
      · left; exact h1 ▸ List.mem_cons_self a as
      · rcases ih c h1 with h2 | h2
        · left; exact List.mem_cons_of_mem a h2
        · right; exact h2

theorem wsOnly_collapseWs : ∀ (l : List Char) (c : Char), c ∈ collapseWs l →
    isWs c = true → c = ' ' := by
  intro l
  induction l with
  | nil => intro c h; simp [collapseWs] at h
  | cons a as ih =>
    intro c h hws
    by_cases ha : isWs a = true
    · cases as with
      | nil =>
        rw [collapse_singleton_ws a ha] at h
        simpa using h
      | cons d Y =>
        by_cases hd : isWs d = true
        · rw [collapse_cons_ws_ws a d ha hd] at h
          exact ih c h hws
        · rw [collapse_cons_ws_nonws a d ha (by simpa using hd)] at h
          rcases List.mem_cons.mp h with h1 | h1
          · exact h1
          · exact ih c h1 hws
    · rw [collapse_cons_nonws a (by simpa using ha) as] at h
      rcases List.mem_cons.mp h with h1 | h1
      · subst h1
        rw [hws] at ha
        exact absurd rfl ha
      · exact ih c h1 hws

theorem collapse_head : ∀ (c : Char) (cs : List Char),
    (collapseWs (c :: cs)).head? = some (if isWs c then ' ' else c) := by
  intro c cs
  induction cs generalizing c with
  | nil =>
    by_cases hc : isWs c = true
    · rw [collapse_singleton_ws c hc]; simp [hc]
    · rw [collapse_cons_nonws c (by simpa using hc) []]; simp [hc]
  | cons d Y ih =>
    by_cases hc : isWs c = true
    · by_cases hd : isWs d = true
      · rw [collapse_cons_ws_ws c d hc hd, ih d]
        simp [hc, hd]
      · rw [collapse_cons_ws_nonws c d hc (by simpa using hd)]
        simp [hc]
    · rw [collapse_cons_nonws c (by simpa using hc) (d :: Y)]
      simp [hc]

theorem chain'_cons_of_head (R : Char → Char → Prop) (x : Char) (m : List Char)
    (h1 : ∀ c, m.head? = some c → R x c) (h2 : List.Chain' R m) :
    List.Chain' R (x :: m) := by
  cases m with
  | nil => simp
  | cons e es => exact List.chain'_cons.mpr ⟨h1 e rfl, h2⟩

theorem chain'_noWsPair_collapse : ∀ (l : List Char), List.Chain' noWsPair (collapseWs l) := by
  intro l
  induction l with
  | nil => simp [collapseWs]
  | cons a as ih =>
    by_cases ha : isWs a = true
    · cases as with
      | nil => rw [collapse_singleton_ws a ha]; simp
      | cons d Y =>
        by_cases hd : isWs d = true
        · rw [collapse_cons_ws_ws a d ha hd]; exact ih
        · rw [collapse_cons_ws_nonws a d ha (by simpa using hd)]
          refine chain'_cons_of_head _ _ _ ?_ ih
          intro c hc
          rw [collapse_head d Y] at hc
          injection hc with hc
          subst hc
          simp only [hd, if_neg]
          intro hcontra
          exact hd hcontra.2
    · rw [collapse_cons_nonws a (by simpa using ha) as]
      cases as with
      | nil => simp [collapseWs]
      | cons d Y =>
        refine chain'_cons_of_head _ _ _ ?_ ih
        intro c hc
        rw [collapse_head d Y] at hc
        injection hc with hc
        subst hc
        intro hcontra
        exact ha hcontra.1

theorem chain'_dashOk_collapse : ∀ (l : List Char),
    List.Chain' dashOk l → List.Chain' dashOk (collapseWs l) := by
  intro l
  induction l with
  | nil => intro _; simp [collapseWs]
  | cons a as ih =>
    intro hch
    by_cases ha : isWs a = true
    · cases as with
      | nil => rw [collapse_singleton_ws a ha]; simp
      | cons d Y =>
        by_cases hd : isWs d = true
        · rw [collapse_cons_ws_ws a d ha hd]; exact ih hch.tail
        · rw [collapse_cons_ws_nonws a d ha (by simpa using hd)]
          refine chain'_cons_of_head _ _ _ ?_ (ih hch.tail)
          intro c _
          exact dashOk_space_left c
    · rw [collapse_cons_nonws a (by simpa using ha) as]
      cases as with
      | nil => simp [collapseWs]
      | cons d Y =>
        refine chain'_cons_of_head _ _ _ ?_ (ih hch.tail)
        intro c hc
        rw [collapse_head d Y] at hc
        injection hc with hc
        subst hc
        by_cases hd : isWs d = true
        · simp only [hd, if_pos]
          exact dashOk_space_right a
        · simp only [hd, if_neg]
          exact (List.chain'_cons.mp hch).1

theorem collapse_eq_self : ∀ (l : List Char),
    (∀ c ∈ l, isWs c = true → c = ' ') → List.Chain' noWsPair l →
    collapseWs l = l := by
  intro l
  induction l with
  | nil => intro _ _; rfl
  | cons a as ih =>
    intro hws hch
    by_cases ha : isWs a = true
    · have haSp : a = ' ' := hws a (List.mem_cons_self a as) ha
      cases as with
      | nil => rw [collapse_singleton_ws a ha, haSp]
      | cons d Y =>
        have hd : isWs d = false := by
          by_contra hcon
          exact (List.chain'_cons.mp hch).1 ⟨ha, by simpa using hcon⟩
        rw [collapse_cons_ws_nonws a d ha hd, haSp,
          ih (fun c hc hw => hws c (List.mem_cons_of_mem a hc) hw) hch.tail]
    · rw [collapse_cons_nonws a (by simpa using ha) as,
        ih (fun c hc hw => hws c (List.mem_cons_of_mem a hc) hw) hch.tail]

theorem dropWhile_eq_self_of_head (p : Char → Bool) (l : List Char)
    (h : ∀ c, l.head? = some c → p c = false) : l.dropWhile p = l := by
  cases l with
  | nil => rfl
  | cons a as =>
    have := h a rfl
    simp [List.dropWhile_cons, this]

theorem dropTrail_decomp (p : Char → Bool) (l : List Char) :
    l = dropTrail p l ++ (l.reverse.takeWhile p).reverse := by
  have h := List.takeWhile_append_dropWhile p l.reverse
  have h2 := congrArg List.reverse h
  rw [List.reverse_append, List.reverse_reverse] at h2
  exact h2.symm

theorem dropTrail_eq_self_of_getLast (p : Char → Bool) (l : List Char)
    (h : ∀ c, l.getLast? = some c → p c = false) : dropTrail p l = l := by
  unfold dropTrail
  rw [dropWhile_eq_self_of_head p l.reverse
    (fun c hc => h c (by rwa [List.head?_reverse] at hc)), List.reverse_reverse]

theorem head?_dropTrail (p : Char → Bool) (l : List Char) (c : Char)
    (h : (dropTrail p l).head? = some c) : l.head? = some c := by
  have hd := dropTrail_decomp p l
  cases hm : dropTrail p l with
  | nil => rw [hm] at h; cases h
  | cons a as =>
    rw [hm] at h
    injection h with h
    subst h
    rw [hm] at hd
    rw [hd]
    rfl

theorem getLast?_dropTrail_not (p : Char → Bool) (l : List Char) (c : Char)
    (h : (dropTrail p l).getLast? = some c) : p c = false := by
  unfold dropTrail at h
  rw [List.getLast?_reverse] at h
  have := List.head?_dropWhile_not p l.reverse
  rw [h] at this
  exact this

theorem mem_dropWhile (p : Char → Bool) (l : List Char) (c : Char)
    (h : c ∈ l.dropWhile p) : c ∈ l := by
  have := List.takeWhile_append_dropWhile p l
  rw [← this]
  exact List.mem_append_right _ h

theorem mem_dropTrail (p : Char → Bool) (l : List Char) (c : Char)
    (h : c ∈ dropTrail p l) : c ∈ l := by
  rw [dropTrail_decomp p l]
  exact List.mem_append_left _ h

theorem chain'_dropWhile (R : Char → Char → Prop) (p : Char → Bool) :
    ∀ (l : List Char), List.Chain' R l → List.Chain' R (l.dropWhile p) := by
  intro l
  induction l with
  | nil => intro h; exact h
  | cons a as ih =>
    intro h
    by_cases hp : p a = true
    · rw [List.dropWhile_cons_of_pos hp]
      exact ih h.tail
    · rw [List.dropWhile_cons_of_neg (by simpa using hp)]
      exact h

theorem chain'_dropTrail (R : Char → Char → Prop) (p : Char → Bool) (l : List Char)
    (h : List.Chain' R l) : List.Chain' R (dropTrail p l) := by
  have hd := dropTrail_decomp p l
  rw [hd] at h
  exact (List.chain'_append.mp h).1

theorem getLast?_pyStrip_not_ws (l : List Char) (c : Char)
    (h : (pyStrip l).getLast? = some c) : isWs c = false :=
  getLast?_dropTrail_not isWs (l.dropWhile isWs) c h

theorem head?_pyStrip_not_ws (l : List Char) (c : Char)
    (h : (pyStrip l).head? = some c) : isWs c = false := by
  have h2 := head?_dropTrail isWs (l.dropWhile isWs) c h
  have := List.head?_dropWhile_not isWs l
  rw [h2] at this
  exact this

theorem head?_cleanupPass_not_ws (l : List Char) (c : Char)
    (h : (cleanupPass l).head? = some c) : isWs c = false :=
  head?_pyStrip_not_ws _ c (head?_dropTrail isSpDot _ c h)

theorem getLast?_cleanupPass_not_spdot (l : List Char) (c : Char)
    (h : (cleanupPass l).getLast? = some c) : isSpDot c = false :=
  getLast?_dropTrail_not isSpDot _ c h

theorem mem_cleanupPass (l : List Char) (c : Char) (h : c ∈ cleanupPass l) :
    c ∈ collapseWs l :=
  mem_dropWhile isWs _ c (mem_dropTrail isWs _ c (mem_dropTrail isSpDot _ c h))

theorem wsOnly_cleanupPass (l : List Char) (c : Char) (h : c ∈ cleanupPass l)
    (hws : isWs c = true) : c = ' ' :=
  wsOnly_collapseWs l c (mem_cleanupPass l c h) hws

theorem chain'_noWsPair_cleanupPass (l : List Char) :
    List.Chain' noWsPair (cleanupPass l) :=
  chain'_dropTrail _ _ _ (chain'_dropTrail _ _ _
    (chain'_dropWhile _ _ _ (chain'_noWsPair_collapse l)))

theorem chain'_dashOk_cleanupPass (l : List Char) (h : List.Chain' dashOk l) :
    List.Chain' dashOk (cleanupPass l) :=
  chain'_dropTrail _ _ _ (chain'_dropTrail _ _ _
    (chain'_dropWhile _ _ _ (chain'_dashOk_collapse l h)))

theorem isWs_dash : isWs '-' = false := by decide

theorem isWs_space : isWs ' ' = true := by decide

theorem subDash_nil : subDash [] = [] := rfl

theorem subDash_cons_plain (c : Char) (cs : List Char) (hws : isWs c = false)
    (hd : c ≠ '-') : subDash (c :: cs) = c :: subDash cs := by
  rw [subDash_eq]
  rw [List.dropWhile_cons_of_neg (by simp [hws])]
  simp only [List.head?_cons, Option.some_inj]
  rw [if_neg hd]

theorem subDash_cons_dash (cs : List Char) :
    subDash ('-' :: cs) = ' ' :: '-' :: ' ' :: subDash (cs.dropWhile isWs) := by
  rw [subDash_eq]
  rw [List.dropWhile_cons_of_neg (by simp [isWs_dash])]
  simp

theorem subDash_cons_ws_dash (c : Char) (cs : List Char) (hws : isWs c = true)
    (hd : (cs.dropWhile isWs).head? = some '-') :
    subDash (c :: cs) = subDash cs := by
  rw [subDash_eq, subDash_eq (l := cs)]
  rw [List.dropWhile_cons_of_pos hws]
  rw [if_pos hd, if_pos hd]

theorem subDash_cons_ws_plain (c : Char) (cs : List Char) (hws : isWs c = true)
    (hd : ¬((cs.dropWhile isWs).head? = some '-')) :
    subDash (c :: cs) = c :: subDash cs := by
  rw [subDash_eq]
  rw [List.dropWhile_cons_of_pos hws]
  rw [if_neg hd]

theorem head?_subDash (l : List Char) (c : Char) (h : (subDash l).head? = some c) :
    c = ' ' ∨ l.head? = some c := by
  rw [subDash_eq] at h
  by_cases hd : (l.dropWhile isWs).head? = some '-'
  · rw [if_pos hd] at h
    injection h with h
    left; exact h.symm
  · rw [if_neg hd] at h
    cases l with
    | nil => cases h
    | cons a as =>
      injection h with h
      right; rw [h]; rfl

theorem mem_subDash : ∀ (n : Nat) (l : List Char), l.length ≤ n →
    ∀ c ∈ subDash l, c ∈ l ∨ c = ' ' ∨ c = '-' := by
  intro n
  induction n with
  | zero =>
    intro l hl c hc
    have : l = [] := List.length_eq_zero.mp (Nat.le_zero.mp hl)
    subst this
    rw [subDash_nil] at hc
    cases hc
  | succ m ih =>
    intro l hl c hc
    rw [subDash_eq] at hc
    by_cases hd : (l.dropWhile isWs).head? = some '-'
    · rw [if_pos hd] at hc
      have hlen1 : (l.dropWhile isWs).length ≤ l.length := length_dropWhile_le' isWs l
      have hne : l.dropWhile isWs ≠ [] := by
        intro hcon; rw [hcon] at hd; cases hd
      have hlen2 : (l.dropWhile isWs).tail.length + 1 = (l.dropWhile isWs).length := by
        cases hh : l.dropWhile isWs with
        | nil => exact absurd hh hne
        | cons x xs => simp
      have hlen3 : ((l.dropWhile isWs).tail.dropWhile isWs).length ≤
          (l.dropWhile isWs).tail.length := length_dropWhile_le' _ _
      have hlpos : l ≠ [] := by
        intro hcon; subst hcon; exact hne rfl
      simp only [List.mem_cons] at hc
      rcases hc with h1 | h1 | h1 | h1
      · right; left; exact h1
      · right; right; exact h1
      · right; left; exact h1
      · rcases ih ((l.dropWhile isWs).tail.dropWhile isWs)
          (by
            have : 0 < l.length := by
              cases l with
              | nil => exact absurd rfl hlpos
              | cons x xs => simp
            omega) c h1 with h2 | h2
        · left
          exact mem_dropWhile isWs l c
            (List.mem_of_mem_tail (mem_dropWhile isWs _ c h2))
        · right; exact h2
    · rw [if_neg hd] at hc
      cases l with
      | nil => cases hc
      | cons a as =>
        rcases List.mem_cons.mp hc with h1 | h1
        · left; rw [h1]; exact List.mem_cons_self a as
        · rcases ih as (by simp at hl; omega) c h1 with h2 | h2
          · left; exact List.mem_cons_of_mem a h2
          · right; exact h2

theorem chain'_dashOk_subDash : ∀ (n : Nat) (l : List Char), l.length ≤ n →
    List.Chain' dashOk (subDash l) := by
  intro n
  induction n with
  | zero =>
    intro l hl
    have : l = [] := List.length_eq_zero.mp (Nat.le_zero.mp hl)
    subst this
    rw [subDash_nil]
    simp
  | succ m ih =>
    intro l hl
    rw [subDash_eq]
    by_cases hd : (l.dropWhile isWs).head? = some '-'
    · rw [if_pos hd]
      have hlen1 : (l.dropWhile isWs).length ≤ l.length := length_dropWhile_le' isWs l
      have hne : l.dropWhile isWs ≠ [] := by
        intro hcon; rw [hcon] at hd; cases hd
      have hlen2 : (l.dropWhile isWs).tail.length + 1 = (l.dropWhile isWs).length := by
        cases hh : l.dropWhile isWs with
        | nil => exact absurd hh hne
        | cons x xs => simp
      have hlen3 : ((l.dropWhile isWs).tail.dropWhile isWs).length ≤
          (l.dropWhile isWs).tail.length := length_dropWhile_le' _ _
      have hlpos : 0 < l.length := by
        cases l with
        | nil => simp at hd
        | cons x xs => simp
      refine List.chain'_cons.mpr ⟨dashOk_space_left '-', ?_⟩
      refine List.chain'_cons.mpr ⟨dashOk_space_right '-', ?_⟩
      refine chain'_cons_of_head _ _ _ (fun c _ => dashOk_space_left c) ?_
      exact ih _ (by omega)
    · rw [if_neg hd]
      cases l with
      | nil => simp
      | cons a as =>
        refine chain'_cons_of_head _ _ _ ?_ (ih as (by simp at hl; omega))
        intro c hc
        rcases head?_subDash as c hc with h1 | h1
        · rw [h1]; exact dashOk_space_right a
        · have hcne : c ≠ '-' := by
            intro hcon
            subst hcon
            cases as with
            | nil => cases h1
            | cons b bs =>
              injection h1 with h1
              subst h1
              rw [subDash_cons_dash] at hc
              injection hc with hc
              exact absurd hc (by decide)
          have hane : a ≠ '-' := by
            intro hcon
            subst hcon
            apply hd
            rw [List.dropWhile_cons_of_neg (by simp [isWs_dash])]
            rfl
          exact ⟨fun h => absurd h hane, fun h => absurd h hcne⟩

/-- The shape `collapseWs (subDash l)` takes on an already-normalized list:
`l` itself, with one space added before a leading hyphen and after a
trailing hyphen. -/
def padEnds (l : List Char) : List Char :=
  (if l.head? = some '-' then [' '] else []) ++ l ++
    (if l.getLast? = some '-' then [' '] else [])

theorem padEnds_no_lead (l : List Char) (h : l.head? ≠ some '-') :
    padEnds l = l ++ (if l.getLast? = some '-' then [' '] else []) := by
  simp [padEnds, h]

theorem collapse_subDash_padEnds : ∀ (n : Nat) (l : List Char), l.length ≤ n →
    (∀ c ∈ l, isWs c = true → c = ' ') →
    List.Chain' noWsPair l → List.Chain' dashOk l →
    collapseWs (subDash l) = padEnds l := by
  intro n
  induction n with
  | zero =>
    intro l hl _ _ _
    have : l = [] := List.length_eq_zero.mp (Nat.le_zero.mp hl)
    subst this
    simp [subDash_nil, collapseWs, padEnds]
  | succ m ih =>
    intro l hl hws hnw hdk
    cases l with
    | nil => simp [subDash_nil, collapseWs, padEnds]
    | cons c cs =>
    have hlcs : cs.length ≤ m := by simp at hl; omega
    have hwsT : ∀ x ∈ cs, isWs x = true → x = ' ' :=
      fun x hx h => hws x (List.mem_cons_of_mem c hx) h
    by_cases hwc : isWs c = true
    · -- leading whitespace: it must be a space
      have hcSp : c = ' ' := hws c (List.mem_cons_self c cs) hwc
      subst hcSp
      cases cs with
      | nil =>
        rw [subDash_cons_ws_plain ' ' [] isWs_space (by simp [List.dropWhile]),
          subDash_nil, collapse_singleton_ws ' ' isWs_space]
        simp [padEnds]
      | cons d cs' =>
        have hdb : isWs d = false := by
          by_contra hcon
          exact (List.chain'_cons.mp hnw).1 ⟨isWs_space, by simpa using hcon⟩
        have hdw : List.dropWhile isWs (d :: cs') = d :: cs' :=
          List.dropWhile_cons_of_neg (by simp [hdb])
        by_cases hdd : d = '-'
        · subst hdd
          rw [subDash_cons_ws_dash ' ' _ isWs_space (by rw [hdw]; rfl)]
          rw [ih ('-' :: cs') hlcs hwsT hnw.tail hdk.tail]
          rw [padEnds_no_lead (' ' :: '-' :: cs') (by simp)]
          simp [padEnds, List.getLast?_cons_cons]
        · rw [subDash_cons_ws_plain ' ' _ isWs_space
            (by rw [hdw]; simp [hdd])]
          rw [subDash_cons_plain d cs' hdb hdd]
          rw [collapse_cons_ws_nonws ' ' d isWs_space hdb]
          rw [← subDash_cons_plain d cs' hdb hdd]
          rw [ih (d :: cs') hlcs hwsT hnw.tail hdk.tail]
          rw [padEnds_no_lead (d :: cs') (by simp [hdd]),
            padEnds_no_lead (' ' :: d :: cs') (by simp)]
          simp [List.getLast?_cons_cons]
    · -- leading non-whitespace
      have hwcf : isWs c = false := by simpa using hwc
      by_cases hcd : c = '-'
      · subst hcd
        -- a hyphen is followed by a space or ends the list
        cases cs with
        | nil =>
          rw [subDash_cons_dash]
          simp only [List.dropWhile_nil]
          rw [subDash_nil]
          rw [collapse_cons_ws_nonws ' ' '-' isWs_space isWs_dash,
            collapse_cons_nonws '-' isWs_dash, collapse_singleton_ws ' ' isWs_space]
          simp [padEnds]
        | cons d cs' =>
          have hdSp : d = ' ' := (List.chain'_cons.mp hdk).1.1 rfl
          subst hdSp
          have hdwcs' : List.dropWhile isWs cs' = cs' := by
            cases cs' with
            | nil => rfl
            | cons e cs'' =>
              have heb : isWs e = false := by
                by_contra hcon
                exact (List.chain'_cons.mp hnw.tail).1 ⟨isWs_space, by simpa using hcon⟩
              exact List.dropWhile_cons_of_neg (by simp [heb])
          rw [subDash_cons_dash, List.dropWhile_cons_of_pos isWs_space, hdwcs']
          have hlcs' : cs'.length ≤ m := by simp at hl; omega
          have hwsT' : ∀ x ∈ cs', isWs x = true → x = ' ' :=
            fun x hx h => hwsT x (List.mem_cons_of_mem ' ' hx) h
          cases cs' with
          | nil =>
            rw [subDash_nil]
            rw [collapse_cons_ws_nonws ' ' '-' isWs_space isWs_dash,
              collapse_cons_nonws '-' isWs_dash, collapse_singleton_ws ' ' isWs_space]
            simp [padEnds, List.getLast?_cons_cons]
          | cons e cs'' =>
            have heb : isWs e = false := by
              by_contra hcon
              exact (List.chain'_cons.mp hnw.tail).1 ⟨isWs_space, by simpa using hcon⟩
            by_cases hed : e = '-'
            · subst hed
              rw [subDash_cons_dash]
              rw [collapse_cons_ws_nonws ' ' '-' isWs_space isWs_dash,
                collapse_cons_nonws '-' isWs_dash,
                collapse_cons_ws_ws ' ' ' ' isWs_space isWs_space]
              rw [← subDash_cons_dash]
              rw [ih ('-' :: cs'') hlcs' hwsT' hnw.tail.tail hdk.tail.tail]
              rw [show padEnds ('-' :: cs'') =
                [' '] ++ ('-' :: cs'') ++
                  (if ('-' :: cs'').getLast? = some '-' then [' '] else []) from by
                simp [padEnds]]
              rw [show padEnds ('-' :: ' ' :: '-' :: cs'') =
                [' '] ++ ('-' :: ' ' :: '-' :: cs'') ++
                  (if ('-' :: ' ' :: '-' :: cs'').getLast? = some '-' then [' ']
                   else []) from by simp [padEnds]]
              simp [List.getLast?_cons_cons]
            · rw [subDash_cons_plain e cs'' heb hed]
              rw [collapse_cons_ws_nonws ' ' '-' isWs_space isWs_dash,
                collapse_cons_nonws '-' isWs_dash,
                collapse_cons_ws_nonws ' ' e isWs_space heb]
              rw [← subDash_cons_plain e cs'' heb hed]
              rw [ih (e :: cs'') hlcs' hwsT' hnw.tail.tail hdk.tail.tail]
              rw [padEnds_no_lead (e :: cs'') (by simp [hed])]
              rw [show padEnds ('-' :: ' ' :: e :: cs'') =
                [' '] ++ ('-' :: ' ' :: e :: cs'') ++
                  (if ('-' :: ' ' :: e :: cs'').getLast? = some '-' then [' ']
                   else []) from by simp [padEnds]]
              simp [List.getLast?_cons_cons]
      · -- plain character
        rw [subDash_cons_plain c cs hwcf hcd]
        rw [collapse_cons_nonws c hwcf]
        rw [ih cs hlcs hwsT hnw.tail hdk.tail]
        have hheadcs : cs.head? ≠ some '-' := by
          intro hcon
          cases cs with
          | nil => cases hcon
          | cons d cs' =>
            injection hcon with hcon
            subst hcon
            have := (List.chain'_cons.mp hdk).1.2 rfl
            rw [this] at hwcf
            cases hwcf
        rw [padEnds_no_lead cs hheadcs, padEnds_no_lead (c :: cs) (by simp [hcd])]
        cases cs with
        | nil => simp [padEnds, hcd]
        | cons d cs' => simp [List.getLast?_cons_cons]

theorem pyStrip_padEnds (L : List Char)
    (hhead : ∀ c, L.head? = some c → isWs c = false)
    (hlastw : ∀ c, L.getLast? = some c → isWs c = false) :
    pyStrip (padEnds L) = L := by
  cases L with
  | nil => rfl
  | cons a L' =>
    have hna : isWs a = false := hhead a rfl
    have hdw : List.dropWhile isWs (padEnds (a :: L')) =
        (a :: L') ++ (if (a :: L').getLast? = some '-' then [' '] else []) := by
      unfold padEnds
      by_cases hpl : (a :: L').head? = some '-'
      · rw [if_pos hpl]
        rw [show ([' '] ++ (a :: L') ++
            (if (a :: L').getLast? = some '-' then [' '] else [])) =
          ' ' :: (a :: (L' ++ (if (a :: L').getLast? = some '-' then [' '] else [])))
          from by simp]
        rw [List.dropWhile_cons_of_pos isWs_space,
          List.dropWhile_cons_of_neg (by simp [hna])]
        simp
      · rw [if_neg hpl]
        rw [show ([] ++ (a :: L') ++
            (if (a :: L').getLast? = some '-' then [' '] else [])) =
          a :: (L' ++ (if (a :: L').getLast? = some '-' then [' '] else []))
          from by simp]
        rw [List.dropWhile_cons_of_neg (by simp [hna])]
        simp
    unfold pyStrip
    rw [hdw]
    by_cases hpr : (a :: L').getLast? = some '-'
    · rw [if_pos hpr]
      unfold dropTrail
      rw [show ((a :: L') ++ [' ']).reverse = ' ' :: (a :: L').reverse from by simp]
      rw [List.dropWhile_cons_of_pos isWs_space]
      rw [dropWhile_eq_self_of_head isWs (a :: L').reverse ?_, List.reverse_reverse]
      intro c hc
      rw [List.head?_reverse] at hc
      exact hlastw c hc
    · rw [if_neg hpr]
      simp only [List.append_nil]
      exact dropTrail_eq_self_of_getLast isWs (a :: L') hlastw

theorem cleanupPass_subDash_eq_self (L : List Char)
    (hws : ∀ c ∈ L, isWs c = true → c = ' ')
    (hnw : List.Chain' noWsPair L) (hdk : List.Chain' dashOk L)
    (hhead : ∀ c, L.head? = some c → isWs c = false)
    (hlast : ∀ c, L.getLast? = some c → isSpDot c = false) :
    cleanupPass (subDash L) = L := by
  have hlastw : ∀ c, L.getLast? = some c → isWs c = false := by
    intro c hc
    by_contra hcon
    have hcSp : c = ' ' := hws c (List.mem_of_mem_getLast? hc) (by simpa using hcon)
    have := hlast c hc
    rw [hcSp] at this
    cases this
  unfold cleanupPass
  rw [collapse_subDash_padEnds L.length L le_rfl hws hnw hdk]
  rw [pyStrip_padEnds L hhead hlastw]
  exact dropTrail_eq_self_of_getLast isSpDot L hlast

theorem replaceInvalid_no_invalid (l : List Char) (c : Char)
    (h : c ∈ replaceInvalid l) : isInvalidWin c = false := by
  unfold replaceInvalid at h
  rcases List.mem_map.mp h with ⟨a, _, ha⟩
  by_cases hinv : isInvalidWin a = true
  · rw [if_pos hinv] at ha
    rw [← ha]
    decide
  · rw [if_neg hinv] at ha
    rw [← ha]
    simpa using hinv

theorem replaceInvalid_eq_self (l : List Char)
    (h : ∀ c ∈ l, isInvalidWin c = false) : replaceInvalid l = l := by
  unfold replaceInvalid
  induction l with
  | nil => rfl
  | cons a as ih =>
    simp only [List.map_cons]
    rw [if_neg (by simp [h a (List.mem_cons_self a as)]),
      ih (fun c hc => h c (List.mem_cons_of_mem a hc))]

theorem cleanupPass_eq_self (L : List Char)
    (hws : ∀ c ∈ L, isWs c = true → c = ' ')
    (hnw : List.Chain' noWsPair L)
    (hhead : ∀ c, L.head? = some c → isWs c = false)
    (hlast : ∀ c, L.getLast? = some c → isSpDot c = false) :
    cleanupPass L = L := by
  have hlastw : ∀ c, L.getLast? = some c → isWs c = false := by
    intro c hc
    by_contra hcon
    have hcSp : c = ' ' := hws c (List.mem_of_mem_getLast? hc) (by simpa using hcon)
    have := hlast c hc
    rw [hcSp] at this
    cases this
  have hstrip : pyStrip L = L := by
    unfold pyStrip
    rw [dropWhile_eq_self_of_head isWs L hhead]
    exact dropTrail_eq_self_of_getLast isWs L hlastw
  unfold cleanupPass
  rw [collapse_eq_self L hws hnw, hstrip]
  exact dropTrail_eq_self_of_getLast isSpDot L hlast

/-- The string body of `sanitize_filename`, before the empty-name fallback. -/
def coreSan (l : List Char) : List Char :=
  cleanupPass (subDash (cleanupPass (replaceInvalid l)))

set_option maxHeartbeats 1000000 in
theorem sanitize_eq (name : String) :
    sanitize_filename name =
      if (coreSan name.data).isEmpty then "untitled"
      else String.mk (coreSan name.data) := rfl

set_option maxHeartbeats 2000000 in
theorem coreSan_idem (l : List Char) : coreSan (coreSan l) = coreSan l := by
  have hcore : ∀ (m : List Char),
      coreSan m = cleanupPass (subDash (cleanupPass (replaceInvalid m))) :=
    fun m => rfl
  generalize hL : coreSan l = L
  rw [hcore l] at hL
  have hws : ∀ c ∈ L, isWs c = true → c = ' ' := by
    rw [← hL]; exact wsOnly_cleanupPass (subDash (cleanupPass (replaceInvalid l)))
  have hnw : List.Chain' noWsPair L := by
    rw [← hL]
    exact chain'_noWsPair_cleanupPass (subDash (cleanupPass (replaceInvalid l)))
  have hdk : List.Chain' dashOk L := by
    rw [← hL]
    exact chain'_dashOk_cleanupPass (subDash (cleanupPass (replaceInvalid l)))
      (chain'_dashOk_subDash (cleanupPass (replaceInvalid l)).length
        (cleanupPass (replaceInvalid l)) le_rfl)
  have hhead : ∀ c, L.head? = some c → isWs c = false := by
    rw [← hL]; exact head?_cleanupPass_not_ws (subDash (cleanupPass (replaceInvalid l)))
  have hlast : ∀ c, L.getLast? = some c → isSpDot c = false := by
    rw [← hL]
    exact getLast?_cleanupPass_not_spdot (subDash (cleanupPass (replaceInvalid l)))
  have hNoInv : ∀ c ∈ L, isInvalidWin c = false := by
    rw [← hL]
    intro c hc
    have h1 := mem_cleanupPass (subDash (cleanupPass (replaceInvalid l))) c hc
    rcases mem_collapseWs (subDash (cleanupPass (replaceInvalid l))) c h1 with h2 | h2
    · rcases mem_subDash (cleanupPass (replaceInvalid l)).length
        (cleanupPass (replaceInvalid l)) le_rfl c h2 with h3 | h3 | h3
      · have h4 : c ∈ collapseWs (replaceInvalid l) :=
          mem_cleanupPass (replaceInvalid l) c h3
        rcases mem_collapseWs (replaceInvalid l) c h4 with h5 | h5
        · exact replaceInvalid_no_invalid l c h5
        · rw [h5]; decide
      · rw [h3]; decide
      · rw [h3]; decide
    · rw [h2]; decide
  rw [hcore L]
  rw [replaceInvalid_eq_self L hNoInv,
    cleanupPass_eq_self L hws hnw hhead hlast]
  exact cleanupPass_subDash_eq_self L hws hnw hdk hhead hlast

set_option maxHeartbeats 2000000 in
/-- C7: filename sanitization is idempotent — for every string x,
`sanitize_filename (sanitize_filename x) = sanitize_filename x`. -/
theorem claim_C7_sanitize_idempotent (x : String) :
    sanitize_filename (sanitize_filename x) = sanitize_filename x := by
  rw [sanitize_eq x]
  by_cases hE : (coreSan x.data).isEmpty = true
  · rw [if_pos hE, sanitize_eq "untitled"]
    decide
  · rw [if_neg hE, sanitize_eq (String.mk (coreSan x.data))]
    rw [show (String.mk (coreSan x.data)).data = coreSan x.data from rfl,
      coreSan_idem x.data]
    rw [if_neg hE]

theorem mem_pyStrip (l : List Char) (c : Char) (h : c ∈ pyStrip l) : c ∈ l :=
  mem_dropWhile isWs l c (mem_dropTrail isWs _ c h)

theorem chain'_noWsPair_pyStrip_collapse (l : List Char) :
    List.Chain' noWsPair (pyStrip (collapseWs l)) :=
  chain'_dropTrail _ _ _ (chain'_dropWhile _ _ _ (chain'_noWsPair_collapse l))

/-- The whitespace normalization of lines 137-140 is idempotent. -/
theorem normStrS_idem (s : String) : normStrS (normStrS s) = normStrS s := by
  unfold normStrS
  rw [show (String.mk (pyStrip (collapseWs s.data))).data =
    pyStrip (collapseWs s.data) from rfl]
  congr 1
  generalize hL : pyStrip (collapseWs s.data) = L
  have hws : ∀ c ∈ L, isWs c = true → c = ' ' := by
    rw [← hL]
    intro c hc hwc
    exact wsOnly_collapseWs s.data c (mem_pyStrip _ c hc) hwc
  have hnw : List.Chain' noWsPair L := by
    rw [← hL]; exact chain'_noWsPair_pyStrip_collapse s.data
  have hhead : ∀ c, L.head? = some c → isWs c = false := by
    rw [← hL]; exact head?_pyStrip_not_ws (collapseWs s.data)
  have hlastw : ∀ c, L.getLast? = some c → isWs c = false := by
    rw [← hL]; exact getLast?_pyStrip_not_ws (collapseWs s.data)
  rw [collapse_eq_self L hws hnw]
  unfold pyStrip
  rw [dropWhile_eq_self_of_head isWs L hhead]
  exact dropTrail_eq_self_of_getLast isWs L hlastw

theorem extract_body_inv (p : Json) (ti : TrackInfo)
    (h : extract_body p = .ok (some ti)) :
    (∃ s, ti.artist = normStrS s) ∧ (∃ s, ti.title = normStrS s) ∧
      (ti.album = none ∨ ∃ a, ti.album = some (normStrS a)) := by
  unfold extract_body at h
  cases h1 : jGet p "track" with
  | error e => rw [h1] at h; simp only [bind, Except.bind] at h; exact Except.noConfusion h
  | ok tv =>
  rw [h1] at h
  simp only [bind, Except.bind] at h
  cases h2 : jGet (pyOr tv (.obj [])) "title" with
  | error e => rw [h2] at h; simp only [Except.bind] at h; exact Except.noConfusion h
  | ok title =>
  rw [h2] at h
  simp only [Except.bind] at h
  cases h3 : jGet (pyOr tv (.obj [])) "subtitle" with
  | error e => rw [h3] at h; simp only [Except.bind] at h; exact Except.noConfusion h
  | ok artist =>
  rw [h3] at h
  simp only [Except.bind] at h
  by_cases hcond : (!pyTruthy title || !pyTruthy artist) = true
  · rw [if_pos hcond] at h
    simp only [pure, Except.pure] at h
    injection h with h
    cases h
  · rw [if_neg hcond] at h
    cases h4 : jGetD (pyOr tv (.obj [])) "sections" (.arr []) with
    | error e => rw [h4] at h; simp only [Except.bind] at h; exact Except.noConfusion h
    | ok sectionsJ =>
    rw [h4] at h
    simp only [Except.bind] at h
    cases h5 : pyIter (pyOr sectionsJ (.arr [])) with
    | error e => rw [h5] at h; simp only [Except.bind] at h; exact Except.noConfusion h
    | ok secs =>
    rw [h5] at h
    simp only [Except.bind] at h
    cases h6 : secs.foldlM sectionStep Json.null with
    | error e => rw [h6] at h; simp only [Except.bind] at h; exact Except.noConfusion h
    | ok album =>
    rw [h6] at h
    simp only [Except.bind] at h
    cases h7 : jGetD (pyOr tv (.obj [])) "images" (.obj []) with
    | error e => rw [h7] at h; simp only [Except.bind] at h; exact Except.noConfusion h
    | ok imagesJ =>
    rw [h7] at h
    simp only [Except.bind] at h
    cases h8 : jGet (pyOr imagesJ (.obj [])) "coverarthq" with
    | error e => rw [h8] at h; simp only [Except.bind] at h; exact Except.noConfusion h
    | ok c1 =>
    rw [h8] at h
    simp only [Except.bind] at h
    cases h9 : jGet (pyOr imagesJ (.obj [])) "coverart" with
    | error e => rw [h9] at h; simp only [Except.bind] at h; exact Except.noConfusion h
    | ok c2 =>
    rw [h9] at h
    simp only [Except.bind] at h
    cases h10 : jGet (pyOr imagesJ (.obj [])) "background" with
    | error e => rw [h10] at h; simp only [Except.bind] at h; exact Except.noConfusion h
    | ok c3 =>
    rw [h10] at h
    simp only [Except.bind] at h
    cases h11 : asStr artist with
    | error e => rw [h11] at h; simp only [Except.bind] at h; exact Except.noConfusion h
    | ok artistS =>
    rw [h11] at h
    simp only [Except.bind] at h
    cases h12 : asStr title with
    | error e => rw [h12] at h; simp only [Except.bind] at h; exact Except.noConfusion h
    | ok titleS =>
    rw [h12] at h
    simp only [Except.bind] at h
    by_cases halb : pyTruthy album = true
    · rw [if_pos halb] at h
      cases h13 : asStr album with
      | error e => rw [h13] at h; simp only [bind, Except.bind] at h; exact Except.noConfusion h
      | ok a0 =>
        rw [h13] at h
        simp only [bind, Except.bind, pure, Except.pure] at h
        injection h with h
        injection h with h
        refine ⟨⟨artistS, ?_⟩, ⟨titleS, ?_⟩, Or.inr ⟨a0, ?_⟩⟩
        · rw [← h]
        · rw [← h]
        · rw [← h]
    · rw [if_neg halb] at h
      simp only [bind, Except.bind, pure, Except.pure] at h
      injection h with h
      injection h with h
      refine ⟨⟨artistS, ?_⟩, ⟨titleS, ?_⟩, Or.inl ?_⟩
      · rw [← h]
      · rw [← h]
      · rw [← h]

/-- C4 counterexample: on a payload whose `track.title` is a whitespace-only
string, extraction succeeds but the returned title is empty after
normalization. -/
theorem claim_C4_counterexample :
    extract_trackinfo_from_shazam
      (.obj [("track", .obj [("title", .str " "), ("subtitle", .str "X")])]) =
      some { artist := "X", title := "", album := none, cover_url := .null } := rfl

/-- C4 as amended: on every payload on which extract succeeds, the returned
artist, title and album (when present) are whitespace-normalized (internal
whitespace collapsed, ends stripped) — they are fixed points of the
normalization — but they may be empty when the raw field was
whitespace-only. -/
theorem claim_C4_normalized_amended (p : Json) (ti : TrackInfo)
    (h : extract_trackinfo_from_shazam p = some ti) :
    normStrS ti.artist = ti.artist ∧ normStrS ti.title = ti.title ∧
      ∀ a, ti.album = some a → normStrS a = a := by
  have hb : extract_body p = .ok (some ti) := by
    unfold extract_trackinfo_from_shazam at h
    cases hb : extract_body p with
    | ok r =>
      rw [hb] at h
      exact congrArg Except.ok h
    | error e => rw [hb] at h; cases h
  obtain ⟨⟨s1, ha⟩, ⟨s2, ht⟩, halb⟩ := extract_body_inv p ti hb
  refine ⟨by rw [ha, normStrS_idem], by rw [ht, normStrS_idem], ?_⟩
  intro a haa
  rcases halb with h0 | ⟨a0, h0⟩
  · rw [h0] at haa; cases haa
  · rw [h0] at haa
    injection haa with haa
    rw [← haa, normStrS_idem]

theorem claim_C4_normalized_amended_witness :
    normStrS ("X" : String) = "X" ∧ normStrS ("" : String) = "" := by
  have h := claim_C4_normalized_amended
    (.obj [("track", .obj [("title", .str " "), ("subtitle", .str "X")])])
    { artist := "X", title := "", album := none, cover_url := .null } rfl
  exact ⟨h.1, h.2.1⟩
